import Mathlib

/-!
# Verification of the Sprout content-intelligence engine

Shallow embedding of the personalization, clustering, digest and search-merge
algorithms of the Sprout repository, together with proofs of the specified
properties.  Numeric values (weights, relevances, scores) are modelled as
rationals; identifiers (users, topics, sources, content items) as naturals.

Source locations:
* feed scoring: `supabase/functions/personalized-feed/index.ts`
  (`calculateTopicMatch`, `calculateRecencyBoost`, `scoredContents`)
* topic weights: `trigger/src/lib/personalization.ts`
  (`updateTopicWeightsForInteraction`)
* search merging: `supabase/functions/search-content/index.ts` (`mergeResults`)
* theme clustering: `trigger/src/lib/themes.ts`
  (`cosineSimilarity`, `clusterContentBySimilarity`, `detectThemesForTopic`)
* digests: `trigger/src/lib/digest.ts`, `trigger/src/jobs/send-digests.ts`
* theme job: `trigger/src/jobs/detect-themes.ts`
-/

namespace Sprout

/-! ## Feed scorer (personalized-feed edge function) -/

/-- A row of `source_topics`: a source-to-topic edge with a relevance. -/
structure SourceTopic where
  source_id : ℕ
  topic_id : ℕ
  relevance : ℚ
  deriving DecidableEq, Repr

/-- A row of `user_topics` as read by the edge function: topic and weight. -/
structure UserTopic where
  topic_id : ℕ
  weight : ℚ
  deriving DecidableEq, Repr

/-- The JS `Map` built by `new Map(userTopics.map((ut) => [ut.topic_id, ut.weight]))`:
for duplicate keys the later entry wins, and lookup returns the stored weight. -/
def lookupWeight (userTopics : List UserTopic) (t : ℕ) : Option ℚ :=
  userTopics.foldl (fun acc ut => if ut.topic_id = t then some ut.weight else acc) none

/-- Exact translation of `calculateTopicMatch` from the personalized-feed
edge function: returns 0 when either list is empty, otherwise accumulates
`weightedSum += userWeight * st.relevance` and `totalWeight += st.relevance`
over the source topics the user also has, returns 0 when `totalWeight` is 0,
and otherwise `min(50, (weightedSum / totalWeight) * 50)`. -/
def calculateTopicMatch (sourceTopics : List SourceTopic) (userTopics : List UserTopic) : ℚ :=
  if sourceTopics.isEmpty ∨ userTopics.isEmpty then 0
  else
    let acc := sourceTopics.foldl
      (fun (p : ℚ × ℚ) st =>
        match lookupWeight userTopics st.topic_id with
        | some w => (p.1 + w * st.relevance, p.2 + st.relevance)
        | none => p)
      (0, 0)
    if acc.2 = 0 then 0 else min 50 (acc.1 / acc.2 * 50)

/-- Exact translation of `calculateRecencyBoost`, as a function of the item's
age in hours: +20 below 24 hours, +10 below 7 days, 0 otherwise. -/
def calculateRecencyBoost (hoursAgo : ℚ) : ℚ :=
  if hoursAgo < 24 then 20 else if hoursAgo < 24 * 7 then 10 else 0

/-- The per-item score computed in the edge function's `scoredContents` map:
`baseScore + topicMatch + recencyBoost` where `baseScore` is the source's
`quality_score` with `?? 50` defaulting. -/
def personalizationScore (quality : Option ℚ) (sourceTopics : List SourceTopic)
    (userTopics : List UserTopic) (hoursAgo : ℚ) : ℚ :=
  quality.getD 50 + calculateTopicMatch sourceTopics userTopics + calculateRecencyBoost hoursAgo

/-- Spec-side formula (refinement target for C1): the source topics whose
topic the user also follows. -/
def sharedTopics (sourceTopics : List SourceTopic) (userTopics : List UserTopic) :
    List SourceTopic :=
  sourceTopics.filter (fun st => userTopics.any (fun ut => ut.topic_id = st.topic_id))

/-- Spec-side formula (refinement target for C1): the weight the user holds
for a topic, taken from the first matching row. -/
def userWeightFor (userTopics : List UserTopic) (t : ℕ) : ℚ :=
  ((userTopics.find? (fun ut => ut.topic_id = t)).map UserTopic.weight).getD 0

/-- Spec-side formula (refinement target for C1): topic match is 0 when the
source has no mappings, the user follows no topics, or no topic is shared,
and otherwise `min(50, (sum of relevance*weight over shared topics / sum of
relevance over shared topics) * 50)`. -/
def specTopicMatch (sourceTopics : List SourceTopic) (userTopics : List UserTopic) : ℚ :=
  if sourceTopics = [] ∨ userTopics = [] ∨ sharedTopics sourceTopics userTopics = [] then 0
  else
    min 50
      (((sharedTopics sourceTopics userTopics).map
          (fun st => st.relevance * userWeightFor userTopics st.topic_id)).sum /
        ((sharedTopics sourceTopics userTopics).map SourceTopic.relevance).sum * 50)

/-- Spec-side recency boost, worded as in the claim: 20 if published less
than 24 hours ago, 10 if less than 7 days (168 hours) ago, 0 otherwise. -/
def specRecencyBoost (hoursAgo : ℚ) : ℚ :=
  if hoursAgo < 24 then 20 else if hoursAgo < 168 then 10 else 0

/-! ## Topic weight learner (`trigger/src/lib/personalization.ts`) -/

/-- The three interaction kinds handled by `updateTopicWeightsForInteraction`. -/
inductive InteractionType where
  | read
  | save
  | dismiss
  deriving DecidableEq, Repr

/-- The `WEIGHT_ADJUSTMENTS` table: read +0.1, save +0.2, dismiss -0.1. -/
def WEIGHT_ADJUSTMENTS : InteractionType → ℚ
  | .read => 1/10
  | .save => 1/5
  | .dismiss => -(1/10)

/-- `MIN_WEIGHT` from the source. -/
def MIN_WEIGHT : ℚ := 1/10

/-- `MAX_WEIGHT` from the source. -/
def MAX_WEIGHT : ℚ := 5

/-- A record pushed onto `upsertRecords`. -/
structure UserTopicRow where
  user_id : ℕ
  topic_id : ℕ
  weight : ℚ
  deriving DecidableEq, Repr

/-- Exact translation of the `for (const topicId of topicIds)` loop of
`updateTopicWeightsForInteraction`: for an existing weight push the clamped
`currentWeight + adjustment`; otherwise push `1.0 + adjustment` only when the
adjustment is positive.  `existing` models the `existingMap` lookup. -/
def buildUpsertRecords (userId : ℕ) (topicIds : List ℕ) (existing : ℕ → Option ℚ)
    (adjustment : ℚ) : List UserTopicRow :=
  match topicIds with
  | [] => []
  | t :: rest =>
    match existing t with
    | some w =>
      ⟨userId, t, max MIN_WEIGHT (min MAX_WEIGHT (w + adjustment))⟩ ::
        buildUpsertRecords userId rest existing adjustment
    | none =>
      if 0 < adjustment then
        ⟨userId, t, 1 + adjustment⟩ :: buildUpsertRecords userId rest existing adjustment
      else
        buildUpsertRecords userId rest existing adjustment

/-- One weight-update step on an existing row, as the source computes it:
`Math.max(MIN_WEIGHT, Math.min(MAX_WEIGHT, currentWeight + adjustment))`. -/
def clampStep (w : ℚ) (it : InteractionType) : ℚ :=
  max MIN_WEIGHT (min MAX_WEIGHT (w + WEIGHT_ADJUSTMENTS it))

/-! ### Lemmas about the JS-Map weight lookup -/

/-- Folding the map-building step over rows none of which match the key
leaves the accumulator unchanged. -/
lemma lookup_foldl_of_no_match {t : ℕ} (uts : List UserTopic) (acc : Option ℚ)
    (h : ∀ ut ∈ uts, ut.topic_id ≠ t) :
    uts.foldl (fun acc ut => if ut.topic_id = t then some ut.weight else acc) acc = acc := by
  induction uts generalizing acc with
  | nil => rfl
  | cons u rest ih =>
    have hu : u.topic_id ≠ t := h u (by simp)
    simp only [List.foldl_cons, if_neg hu]
    exact ih acc (fun ut hut => h ut (by simp [hut]))

/-- Folding the map-building step from a `some` accumulator yields `some`. -/
lemma lookup_foldl_isSome {t : ℕ} (uts : List UserTopic) (w : ℚ) :
    (uts.foldl (fun acc ut => if ut.topic_id = t then some ut.weight else acc) (some w)).isSome := by
  induction uts generalizing w with
  | nil => rfl
  | cons u rest ih =>
    simp only [List.foldl_cons]
    by_cases hu : u.topic_id = t
    · simpa [hu] using ih u.weight
    · simpa [hu] using ih w

/-- A row matching the key makes the lookup succeed. -/
lemma lookupWeight_isSome {t : ℕ} {uts : List UserTopic}
    (h : ∃ ut ∈ uts, ut.topic_id = t) : (lookupWeight uts t).isSome := by
  induction uts with
  | nil => simp at h
  | cons u rest ih =>
    simp only [lookupWeight, List.foldl_cons]
    by_cases hu : u.topic_id = t
    · simpa [hu] using lookup_foldl_isSome rest u.weight
    · obtain ⟨ut, hmem, hid⟩ := h
      rcases List.mem_cons.mp hmem with rfl | hmem
      · exact absurd hid hu
      · simpa [hu] using ih ⟨ut, hmem, hid⟩

/-- When no row matches the key the lookup fails. -/
lemma lookupWeight_eq_none {t : ℕ} {uts : List UserTopic}
    (h : ∀ ut ∈ uts, ut.topic_id ≠ t) : lookupWeight uts t = none :=
  lookup_foldl_of_no_match uts none h

/-- With distinct topic ids (the table's primary key) the last-wins JS map
lookup agrees with the first-match `find?`. -/
lemma lookupWeight_eq_find? {t : ℕ} {uts : List UserTopic}
    (h : (uts.map UserTopic.topic_id).Nodup) :
    lookupWeight uts t = (uts.find? (fun ut => ut.topic_id = t)).map UserTopic.weight := by
  induction uts with
  | nil => rfl
  | cons u rest ih =>
    simp only [List.map_cons, List.nodup_cons] at h
    by_cases hu : u.topic_id = t
    · have hrest : ∀ ut ∈ rest, ut.topic_id ≠ t := by
        intro ut hut
        subst hu
        exact fun he => h.1 (he ▸ List.mem_map_of_mem UserTopic.topic_id hut)
      simp only [lookupWeight, List.foldl_cons, if_pos hu]
      rw [lookup_foldl_of_no_match rest _ hrest, List.find?_cons_of_pos _ (by simpa using hu)]
      rfl
    · simp only [lookupWeight, List.foldl_cons, if_neg hu]
      rw [List.find?_cons_of_neg _ (by simpa using hu)]
      exact ih h.2

/-- The value returned by the lookup is the weight `userWeightFor` names,
assuming distinct topic ids. -/
lemma lookupWeight_some_value {t : ℕ} {uts : List UserTopic} {w : ℚ}
    (h : (uts.map UserTopic.topic_id).Nodup) (hw : lookupWeight uts t = some w) :
    userWeightFor uts t = w := by
  rw [lookupWeight_eq_find? h] at hw
  obtain ⟨ut, hfind, hweq⟩ := Option.map_eq_some'.mp hw
  simp [userWeightFor, hfind, hweq]

/-- The accumulator fold of `calculateTopicMatch` computes, over the shared
topics, the sum of `weight * relevance` and the sum of `relevance`. -/
lemma topicMatch_foldl_eq (uts : List UserTopic) (h : (uts.map UserTopic.topic_id).Nodup)
    (sts : List SourceTopic) (p : ℚ × ℚ) :
    sts.foldl
      (fun (p : ℚ × ℚ) st =>
        match lookupWeight uts st.topic_id with
        | some w => (p.1 + w * st.relevance, p.2 + st.relevance)
        | none => p)
      p =
    (p.1 + ((sharedTopics sts uts).map
        (fun st => st.relevance * userWeightFor uts st.topic_id)).sum,
      p.2 + ((sharedTopics sts uts).map SourceTopic.relevance).sum) := by
  induction sts generalizing p with
  | nil => simp [sharedTopics]
  | cons st rest ih =>
    simp only [List.foldl_cons]
    rcases hl : lookupWeight uts st.topic_id with _ | w
    · have hno : ¬ uts.any (fun ut => ut.topic_id = st.topic_id) := by
        intro hany
        have := lookupWeight_isSome (by simpa using hany)
        simp [hl] at this
      have hshared : sharedTopics (st :: rest) uts = sharedTopics rest uts := by
        simp only [sharedTopics, List.filter_cons]
        simp [hno]
      rw [ih p, hshared]
    · have hyes : uts.any (fun ut => ut.topic_id = st.topic_id) := by
        by_contra hno
        rw [lookupWeight_eq_none (by simpa using hno)] at hl
        exact Option.noConfusion hl
      have hshared : sharedTopics (st :: rest) uts = st :: sharedTopics rest uts := by
        simp only [sharedTopics, List.filter_cons]
        simp [hyes]
      rw [ih, hshared]
      have hw := lookupWeight_some_value h hl
      simp only [List.map_cons, List.sum_cons, hw, Prod.mk.injEq]
      constructor <;> ring

/-- C1: the personalization score is `base_score + topic_match + recency_boost`
with `base_score` the source quality or 50 when absent, `topic_match` the
claimed clamped weighted average over shared topics (0 when the source has no
mappings, the user follows no topics, or no topic is shared), and the discrete
recency boost.  The concrete scenario (quality 80, 2 hours old, one shared
topic with relevance 1 and weight 2) scores exactly 150. -/
theorem personalizationScore_eq_spec :
    (∀ (quality : Option ℚ) (sts : List SourceTopic) (uts : List UserTopic) (hoursAgo : ℚ),
      (uts.map UserTopic.topic_id).Nodup →
      personalizationScore quality sts uts hoursAgo =
        quality.getD 50 + specTopicMatch sts uts + specRecencyBoost hoursAgo) ∧
    personalizationScore (some 80) [⟨0, 7, 1⟩] [⟨7, 2⟩] 2 = 150 := by
  constructor
  · intro quality sts uts hoursAgo h
    have hrec : calculateRecencyBoost hoursAgo = specRecencyBoost hoursAgo := by
      unfold calculateRecencyBoost specRecencyBoost
      norm_num
    have htm : calculateTopicMatch sts uts = specTopicMatch sts uts := by
      unfold calculateTopicMatch specTopicMatch
      rcases eq_or_ne sts [] with hs | hsne'
      · simp [hs, sharedTopics]
      rcases eq_or_ne uts [] with hu | hune'
      · simp [hu, sharedTopics]
      have hsne : ¬sts.isEmpty := by simpa [List.isEmpty_iff] using hsne'
      have hune : ¬uts.isEmpty := by simpa [List.isEmpty_iff] using hune'
      rw [if_neg (by simp [hsne, hune]), topicMatch_foldl_eq uts h sts (0, 0)]
      by_cases hshared : sharedTopics sts uts = []
      · simp [hshared]
      · have hguard : ¬(sts = [] ∨ uts = [] ∨ sharedTopics sts uts = []) := by
          simp [hsne', hune', hshared]
        rw [if_neg hguard]
        simp only [zero_add]
        by_cases hz : ((sharedTopics sts uts).map SourceTopic.relevance).sum = 0
        · rw [if_pos hz, hz]
          norm_num
        · rw [if_neg hz]
    unfold personalizationScore
    rw [hrec, htm]
  · norm_num [personalizationScore, calculateTopicMatch, lookupWeight, calculateRecencyBoost]

/-- Witness for C1 at a concrete input: a single user topic list has distinct
topic ids, and the score equation holds there. -/
theorem personalizationScore_eq_spec_witness :
    personalizationScore (some 80) [⟨0, 7, 1⟩] [⟨7, 2⟩] 2 =
      (some (80:ℚ)).getD 50 + specTopicMatch [⟨0, 7, 1⟩] [⟨7, 2⟩] + specRecencyBoost 2 :=
  personalizationScore_eq_spec.1 (some 80) [⟨0, 7, 1⟩] [⟨7, 2⟩] 2 (by simp)

/-! ### Weight learner proofs (C2, C7) -/

/-- The clamp of the update step always lands in `[MIN_WEIGHT, MAX_WEIGHT]`. -/
lemma clampStep_bounds (w : ℚ) (it : InteractionType) :
    MIN_WEIGHT ≤ clampStep w it ∧ clampStep w it ≤ MAX_WEIGHT := by
  unfold clampStep
  constructor
  · exact le_max_left _ _
  · exact max_le (by norm_num [MIN_WEIGHT, MAX_WEIGHT]) (min_le_left _ _)

/-- Every record the loop emits has weight in bounds, for any adjustment
at most 4 (the three real adjustments are 0.1, 0.2 and -0.1). -/
lemma buildUpsertRecords_weight_bounds (uid : ℕ) (tids : List ℕ) (existing : ℕ → Option ℚ)
    (adj : ℚ) (hadj : adj ≤ 4) :
    ∀ r ∈ buildUpsertRecords uid tids existing adj,
      MIN_WEIGHT ≤ r.weight ∧ r.weight ≤ MAX_WEIGHT := by
  induction tids with
  | nil => simp [buildUpsertRecords]
  | cons t rest ih =>
    intro r hr
    unfold buildUpsertRecords at hr
    rcases hex : existing t with _ | w
    · rw [hex] at hr
      by_cases hpos : 0 < adj
      · rw [if_pos hpos] at hr
        rcases List.mem_cons.mp hr with rfl | hr
        · constructor
          · simp only [MIN_WEIGHT]
            linarith
          · simp only [MAX_WEIGHT]
            linarith
        · exact ih r hr
      · rw [if_neg hpos] at hr
        exact ih r hr
    · rw [hex] at hr
      rcases List.mem_cons.mp hr with rfl | hr
      · constructor
        · exact le_max_left _ _
        · exact max_le (by norm_num [MIN_WEIGHT, MAX_WEIGHT]) (min_le_left _ _)
      · exact ih r hr

/-- C2: every weight written by `updateTopicWeightsForInteraction` lies in
`[0.1, 5.0]`; the adjustment table is read +0.1, save +0.2, dismiss -0.1; an
existing weight is updated to `clamp(old + adjustment, 0.1, 5.0)`; repeated
application of the update step stays in bounds; and newly created rows get
`1.0 + adjustment`, also in bounds. -/
theorem updateTopicWeights_bounds :
    (∀ (uid : ℕ) (tids : List ℕ) (existing : ℕ → Option ℚ) (it : InteractionType),
      ∀ r ∈ buildUpsertRecords uid tids existing (WEIGHT_ADJUSTMENTS it),
        MIN_WEIGHT ≤ r.weight ∧ r.weight ≤ MAX_WEIGHT) ∧
    (WEIGHT_ADJUSTMENTS .read = 1/10 ∧ WEIGHT_ADJUSTMENTS .save = 1/5 ∧
      WEIGHT_ADJUSTMENTS .dismiss = -(1/10)) ∧
    (∀ (uid t : ℕ) (existing : ℕ → Option ℚ) (w adj : ℚ), existing t = some w →
      buildUpsertRecords uid [t] existing adj =
        [⟨uid, t, max MIN_WEIGHT (min MAX_WEIGHT (w + adj))⟩]) ∧
    (∀ (its : List InteractionType) (w : ℚ), MIN_WEIGHT ≤ w → w ≤ MAX_WEIGHT →
      MIN_WEIGHT ≤ its.foldl clampStep w ∧ its.foldl clampStep w ≤ MAX_WEIGHT) ∧
    (∀ it : InteractionType, 0 < WEIGHT_ADJUSTMENTS it →
      MIN_WEIGHT ≤ 1 + WEIGHT_ADJUSTMENTS it ∧ 1 + WEIGHT_ADJUSTMENTS it ≤ MAX_WEIGHT) := by
  refine ⟨?_, ⟨rfl, rfl, rfl⟩, ?_, ?_, ?_⟩
  · intro uid tids existing it
    exact buildUpsertRecords_weight_bounds uid tids existing _
      (by cases it <;> norm_num [WEIGHT_ADJUSTMENTS])
  · intro uid t existing w adj hex
    unfold buildUpsertRecords
    rw [hex]
    rfl
  · intro its
    induction its with
    | nil => intro w h1 h2; exact ⟨h1, h2⟩
    | cons it rest ih =>
      intro w _ _
      simp only [List.foldl_cons]
      exact ih (clampStep w it) (clampStep_bounds w it).1 (clampStep_bounds w it).2
  · intro it hit
    cases it <;> norm_num [WEIGHT_ADJUSTMENTS, MIN_WEIGHT, MAX_WEIGHT] at hit ⊢

/-- Witness for C2 at concrete inputs: a stored weight 4.9 updated by a save
is written as the clamp (5.0), and repeated saves from 4.9 stay in bounds. -/
theorem updateTopicWeights_bounds_witness :
    buildUpsertRecords 0 [3] (fun t => if t = 3 then some (49/10) else none) (1/5) =
      [⟨0, 3, max MIN_WEIGHT (min MAX_WEIGHT (49/10 + 1/5))⟩] ∧
    (MIN_WEIGHT ≤ [InteractionType.save, .save, .save].foldl clampStep (49/10) ∧
      [InteractionType.save, .save, .save].foldl clampStep (49/10) ≤ MAX_WEIGHT) :=
  ⟨updateTopicWeights_bounds.2.2.1 0 3 _ (49/10) (1/5) (by simp),
    updateTopicWeights_bounds.2.2.2.1 [.save, .save, .save] (49/10)
      (by norm_num [MIN_WEIGHT]) (by norm_num [MAX_WEIGHT])⟩

/-- C7: a dismiss interaction on topics with no existing `UserTopic` row
writes nothing; any record written for a topic with no existing row comes
from a positive adjustment (read or save) and carries weight
`1.0 + adjustment`; in particular no dismiss record ever targets a topic
without an existing row. -/
theorem dismiss_creates_no_rows :
    (∀ (uid : ℕ) (tids : List ℕ) (existing : ℕ → Option ℚ),
      (∀ t ∈ tids, existing t = none) →
      buildUpsertRecords uid tids existing (WEIGHT_ADJUSTMENTS .dismiss) = []) ∧
    (∀ (uid : ℕ) (tids : List ℕ) (existing : ℕ → Option ℚ) (it : InteractionType),
      ∀ r ∈ buildUpsertRecords uid tids existing (WEIGHT_ADJUSTMENTS it),
        existing r.topic_id = none →
        0 < WEIGHT_ADJUSTMENTS it ∧ r.weight = 1 + WEIGHT_ADJUSTMENTS it) ∧
    (∀ (uid : ℕ) (tids : List ℕ) (existing : ℕ → Option ℚ) (t : ℕ), existing t = none →
      ∀ r ∈ buildUpsertRecords uid tids existing (WEIGHT_ADJUSTMENTS .dismiss),
        r.topic_id ≠ t) := by
  have hmem : ∀ (uid : ℕ) (tids : List ℕ) (existing : ℕ → Option ℚ) (adj : ℚ),
      ∀ r ∈ buildUpsertRecords uid tids existing adj,
        existing r.topic_id = none → 0 < adj ∧ r.weight = 1 + adj := by
    intro uid tids existing adj
    induction tids with
    | nil => simp [buildUpsertRecords]
    | cons t rest ih =>
      intro r hr hnone
      unfold buildUpsertRecords at hr
      rcases hex : existing t with _ | w
      · rw [hex] at hr
        by_cases hpos : 0 < adj
        · rw [if_pos hpos] at hr
          rcases List.mem_cons.mp hr with rfl | hr
          · exact ⟨hpos, rfl⟩
          · exact ih r hr hnone
        · rw [if_neg hpos] at hr
          exact ih r hr hnone
      · rw [hex] at hr
        rcases List.mem_cons.mp hr with rfl | hr
        · exact absurd hnone (by simp [hex])
        · exact ih r hr hnone
  refine ⟨?_, fun uid tids existing it => hmem uid tids existing _, ?_⟩
  · intro uid tids existing hall
    induction tids with
    | nil => rfl
    | cons t rest ih =>
      unfold buildUpsertRecords
      rw [hall t (by simp)]
      rw [if_neg (by norm_num [WEIGHT_ADJUSTMENTS])]
      exact ih (fun t' ht' => hall t' (by simp [ht']))
  · intro uid tids existing t ht r hr hteq
    have := hmem uid tids existing _ r hr (hteq ▸ ht)
    norm_num [WEIGHT_ADJUSTMENTS] at this

/-- Witness for C7: a dismiss against two topics with no rows writes nothing. -/
theorem dismiss_creates_no_rows_witness :
    buildUpsertRecords 1 [4, 5] (fun _ => none) (WEIGHT_ADJUSTMENTS .dismiss) = [] :=
  dismiss_creates_no_rows.1 1 [4, 5] (fun _ => none) (fun _ _ => rfl)

/-! ## Search result merger (`mergeResults` in the search-content edge function) -/

/-- An entry of the `resultMap`: a content id with its running score. -/
structure Entry where
  id : ℕ
  score : ℚ
  deriving DecidableEq, Repr

@[simp] lemma Entry.mk_id_score (e : Entry) : Entry.mk e.id e.score = e := rfl

/-- The JS `Map.set` on a list of entries keyed by id: an existing key keeps
its position and gets the new value, a new key is appended. -/
def mapSet (entries : List Entry) (i : ℕ) (s : ℚ) : List Entry :=
  if entries.any (fun e => e.id = i) then
    entries.map (fun e => if e.id = i then ⟨i, s⟩ else e)
  else entries ++ [⟨i, s⟩]

/-- The keyword `forEach`: `resultMap.set(item.id, { score: length - index })`. -/
def kwLoop (len i : ℕ) (acc : List Entry) : List ℕ → List Entry
  | [] => acc
  | a :: rest => kwLoop len (i + 1) (mapSet acc a ((len : ℚ) - i)) rest

/-- The semantic `forEach`: an item already present gets
`score += (length - index) * 1.5`, an absent one is inserted with
`(length - index) * 0.8`. -/
def semLoop (len j : ℕ) (acc : List Entry) : List ℕ → List Entry
  | [] => acc
  | a :: rest =>
    semLoop len (j + 1)
      (if acc.any (fun e => e.id = a) then
        acc.map (fun e => if e.id = a then ⟨e.id, e.score + 3/2 * ((len : ℚ) - j)⟩ else e)
      else acc ++ [⟨a, 4/5 * ((len : ℚ) - j)⟩])
      rest

/-- Stable insertion into a descending-sorted list: skip over strictly
greater keys, settle before the first key not greater.  Models the stable
JS `sort((a, b) => b.score - a.score)`. -/
def insertDescBy {α : Type} {β : Type} [LinearOrder β] (key : α → β) (x : α) :
    List α → List α
  | [] => [x]
  | y :: ys => if key x < key y then y :: insertDescBy key x ys else x :: y :: ys

/-- Stable descending sort by a key. -/
def sortDescBy {α : Type} {β : Type} [LinearOrder β] (key : α → β) : List α → List α
  | [] => []
  | x :: xs => insertDescBy key x (sortDescBy key xs)

/-- Exact translation of `mergeResults`: build the map from the keyword list,
fold in the semantic list, sort by score descending, truncate to `limit`,
strip the score. -/
def mergeResults (kw sem : List ℕ) (limit : ℕ) : List ℕ :=
  ((sortDescBy Entry.score (semLoop sem.length 0 (kwLoop kw.length 0 [] kw) sem)).take
    limit).map Entry.id

/-- Spec-side score of an id (refinement target for C3): keyword rank `i`
contributes `kw_len - i`; a semantic rank `j` adds `(sem_len - j) * 1.5` for
a keyword hit and `(sem_len - j) * 0.8` for a semantic-only item. -/
def specScore (kw sem : List ℕ) (a : ℕ) : ℚ :=
  (if a ∈ kw then (kw.length : ℚ) - List.indexOf a kw else 0) +
  (if a ∈ sem then
    (if a ∈ kw then 3/2 else 4/5) * ((sem.length : ℚ) - List.indexOf a sem)
  else 0)

/-- Spec-side merge (refinement target for C3): the union (keyword items then
semantic-only items) scored by `specScore`, sorted descending, truncated,
with scores stripped. -/
def specMerge (kw sem : List ℕ) (limit : ℕ) : List ℕ :=
  ((sortDescBy Entry.score
      ((kw ++ sem.filter (fun a => decide (a ∉ kw))).map
        (fun a => Entry.mk a (specScore kw sem a)))).take limit).map Entry.id

/-! ### Characterizing the two merge loops -/

/-- The entries the keyword loop produces when scanning from index `i`. -/
def kwEntriesFrom (len i : ℕ) : List ℕ → List Entry
  | [] => []
  | a :: rest => ⟨a, (len : ℚ) - i⟩ :: kwEntriesFrom len (i + 1) rest

/-- The total boost an id receives from the semantic list scanned from
index `j` (a sum, so it is meaningful even with duplicates). -/
def semBoost (len j a : ℕ) : List ℕ → ℚ
  | [] => 0
  | b :: rest => (if a = b then 3/2 * ((len : ℚ) - j) else 0) + semBoost len (j + 1) a rest

/-- The semantic-only entries appended by the semantic loop, scanning from
index `j`, given the ids already present. -/
def semOnlyEntries (len : ℕ) (ids : List ℕ) (j : ℕ) : List ℕ → List Entry
  | [] => []
  | b :: rest =>
    if b ∈ ids then semOnlyEntries len ids (j + 1) rest
    else ⟨b, 4/5 * ((len : ℚ) - j)⟩ :: semOnlyEntries len ids (j + 1) rest

lemma kwEntriesFrom_map_id (len i : ℕ) (kw : List ℕ) :
    (kwEntriesFrom len i kw).map Entry.id = kw := by
  induction kw generalizing i with
  | nil => rfl
  | cons a rest ih => simp [kwEntriesFrom, ih]

/-- With distinct ids the keyword loop appends one entry per id. -/
lemma kwLoop_eq (len : ℕ) (kw : List ℕ) :
    ∀ (i : ℕ) (acc : List Entry), kw.Nodup → (∀ a ∈ kw, ∀ e ∈ acc, e.id ≠ a) →
    kwLoop len i acc kw = acc ++ kwEntriesFrom len i kw := by
  induction kw with
  | nil => intro i acc _ _; simp [kwLoop, kwEntriesFrom]
  | cons a rest ih =>
    intro i acc hnd hdisj
    have hset : mapSet acc a ((len : ℚ) - i) = acc ++ [⟨a, (len : ℚ) - i⟩] := by
      unfold mapSet
      rw [if_neg]
      simp only [List.any_eq_true, not_exists, not_and]
      intro e he
      simpa using hdisj a (by simp) e he
    simp only [kwLoop, hset]
    rw [ih (i + 1) _ (List.nodup_cons.mp hnd).2 ?_]
    · simp [kwEntriesFrom]
    · intro b hb e he
      rcases List.mem_append.mp he with he | he
      · exact hdisj b (by simp [hb]) e he
      · simp only [List.mem_singleton] at he
        subst he
        intro hcontra
        exact (List.nodup_cons.mp hnd).1 (by rw [show a = b from hcontra]; exact hb)

/-- An id absent from the semantic list receives no boost. -/
lemma semBoost_of_not_mem {a : ℕ} {sem : List ℕ} (h : a ∉ sem) (len j : ℕ) :
    semBoost len j a sem = 0 := by
  induction sem generalizing j with
  | nil => rfl
  | cons b rest ih =>
    have hab : a ≠ b := fun hab => h (by simp [hab])
    simp only [semBoost, if_neg hab, zero_add]
    exact ih (fun hr => h (by simp [hr])) (j + 1)

/-- Ids already present do not change which later entries are semantic-only,
as long as they do not occur in the remaining semantic list. -/
lemma semOnlyEntries_append_of_not_mem {a : ℕ} {sem : List ℕ} (h : a ∉ sem)
    (len j : ℕ) (ids : List ℕ) :
    semOnlyEntries len (ids ++ [a]) j sem = semOnlyEntries len ids j sem := by
  induction sem generalizing j with
  | nil => rfl
  | cons b rest ih =>
    have hab : b ≠ a := fun hab => h (by simp [hab])
    have : (b ∈ ids ++ [a]) = (b ∈ ids) := by simp [hab]
    simp only [semOnlyEntries, this]
    by_cases hb : b ∈ ids <;>
      simp [hb, ih (fun hr => h (by simp [hr])) (j + 1)]

/-- Bumping an entry for the semantic head and then adding the boost of the
tail equals adding the boost of the whole semantic list. -/
lemma bump_comp (len j a : ℕ) (rest : List ℕ) (e : Entry) :
    (fun x => Entry.mk x.id (x.score + semBoost len (j + 1) x.id rest))
      (if e.id = a then Entry.mk e.id (e.score + 3/2 * ((len : ℚ) - j)) else e) =
    Entry.mk e.id (e.score + semBoost len j e.id (a :: rest)) := by
  by_cases he : e.id = a
  · simp [semBoost, he]
    ring
  · simp [semBoost, he]

/-- The semantic loop bumps every present entry by its total boost and
appends the semantic-only entries, provided the semantic ids are distinct. -/
lemma semLoop_eq (len : ℕ) (sem : List ℕ) :
    ∀ (j : ℕ) (acc : List Entry), sem.Nodup →
    semLoop len j acc sem =
      acc.map (fun e => ⟨e.id, e.score + semBoost len j e.id sem⟩) ++
        semOnlyEntries len (acc.map Entry.id) j sem := by
  induction sem with
  | nil =>
    intro j acc _
    simp [semLoop, semBoost, semOnlyEntries]
  | cons a rest ih =>
    intro j acc hnd
    have hanotr : a ∉ rest := (List.nodup_cons.mp hnd).1
    simp only [semLoop]
    by_cases hpres : acc.any (fun e => e.id = a)
    · rw [if_pos hpres]
      rw [ih (j + 1) _ (List.nodup_cons.mp hnd).2]
      have hids : (acc.map (fun e => if e.id = a then
          Entry.mk e.id (e.score + 3/2 * ((len : ℚ) - j)) else e)).map Entry.id =
          acc.map Entry.id := by
        rw [List.map_map]
        refine List.map_congr_left fun e _ => ?_
        by_cases he : e.id = a <;> simp [he]
      rw [hids, List.map_map]
      have hmem : a ∈ acc.map Entry.id := by
        simp only [List.any_eq_true] at hpres
        obtain ⟨e, he, heq⟩ := hpres
        simp only [decide_eq_true_eq] at heq
        exact heq ▸ List.mem_map_of_mem Entry.id he
      have honly : semOnlyEntries len (acc.map Entry.id) j (a :: rest) =
          semOnlyEntries len (acc.map Entry.id) (j + 1) rest := by
        simp [semOnlyEntries, hmem]
      rw [honly]
      congr 1
      exact List.map_congr_left fun e _ => bump_comp len j a rest e
    · rw [if_neg hpres]
      rw [ih (j + 1) _ (List.nodup_cons.mp hnd).2]
      have hnm : ∀ e ∈ acc, e.id ≠ a := by
        simp only [List.any_eq_true, not_exists, not_and] at hpres
        intro e he
        simpa using hpres e he
      have hmem : a ∉ acc.map Entry.id := by
        simp only [List.mem_map, not_exists, not_and]
        intro e he
        exact hnm e he
      have honly : semOnlyEntries len (acc.map Entry.id) j (a :: rest) =
          ⟨a, 4/5 * ((len : ℚ) - j)⟩ :: semOnlyEntries len (acc.map Entry.id) (j + 1) rest := by
        simp [semOnlyEntries, hmem]
      rw [List.map_append, honly]
      have hlast : ([(⟨a, 4/5 * ((len : ℚ) - j)⟩ : Entry)]).map
          (fun e => Entry.mk e.id (e.score + semBoost len (j + 1) e.id rest)) =
          [(⟨a, 4/5 * ((len : ℚ) - j)⟩ : Entry)] := by
        simp [semBoost_of_not_mem hanotr]
      rw [hlast]
      have hids2 : (acc ++ [(⟨a, 4/5 * ((len : ℚ) - j)⟩ : Entry)]).map Entry.id =
          acc.map Entry.id ++ [a] := by simp
      rw [hids2, semOnlyEntries_append_of_not_mem hanotr]
      have hacc : acc.map (fun e => Entry.mk e.id (e.score + semBoost len (j + 1) e.id rest)) =
          acc.map (fun e => Entry.mk e.id (e.score + semBoost len j e.id (a :: rest))) := by
        refine List.map_congr_left fun e he => ?_
        simp [semBoost, if_neg (hnm e he), zero_add]
      rw [hacc, List.append_assoc]
      rfl

/-- The keyword entries carry score `len - (i + rank)`, rank taken in the
scanned list, when the ids are distinct. -/
lemma kwEntriesFrom_eq_map (len : ℕ) (kw : List ℕ) (hnd : kw.Nodup) :
    ∀ i : ℕ, kwEntriesFrom len i kw =
      kw.map (fun a => ⟨a, (len : ℚ) - (i + (List.indexOf a kw : ℚ))⟩) := by
  induction kw with
  | nil => intro i; rfl
  | cons a rest ih =>
    intro i
    simp only [kwEntriesFrom, List.map_cons]
    congr 1
    · rw [List.indexOf_cons_self]
      norm_num
    · rw [ih (List.nodup_cons.mp hnd).2 (i + 1)]
      refine List.map_congr_left fun b hb => ?_
      have hab : a ≠ b := fun h => (List.nodup_cons.mp hnd).1 (h ▸ hb)
      rw [List.indexOf_cons_ne _ hab]
      congr 1
      push_cast
      ring

/-- With distinct semantic ids, the boost of an id is the single indexed
term of the claim. -/
lemma semBoost_eq_indexOf {sem : List ℕ} (hnd : sem.Nodup) (len a : ℕ) :
    ∀ j : ℕ, semBoost len j a sem =
      if a ∈ sem then 3/2 * ((len : ℚ) - (j + (List.indexOf a sem : ℚ))) else 0 := by
  induction sem with
  | nil => intro j; simp [semBoost]
  | cons b rest ih =>
    intro j
    have hstep : semBoost len j a (b :: rest) =
        (if a = b then 3/2 * ((len : ℚ) - j) else 0) + semBoost len (j + 1) a rest := rfl
    by_cases hab : a = b
    · subst hab
      have hnr : a ∉ rest := (List.nodup_cons.mp hnd).1
      rw [hstep, if_pos rfl, semBoost_of_not_mem hnr, add_zero,
        if_pos (List.mem_cons_self a rest), List.indexOf_cons_self]
      norm_num
    · rw [hstep, if_neg hab, zero_add, ih (List.nodup_cons.mp hnd).2 (j + 1)]
      by_cases hin : a ∈ rest
      · rw [if_pos hin, if_pos (show a ∈ b :: rest by simp [hin]),
          List.indexOf_cons_ne _ (Ne.symm hab)]
        congr 1
        push_cast
        ring
      · rw [if_neg hin, if_neg (by simp [hab, hin])]

/-- With distinct semantic ids, the semantic-only entries are the filtered
semantic list with the claim's discounted indexed scores. -/
lemma semOnlyEntries_eq_filter {sem : List ℕ} (hnd : sem.Nodup) (len : ℕ) (ids : List ℕ) :
    ∀ j : ℕ, semOnlyEntries len ids j sem =
      (sem.filter (fun b => decide (b ∉ ids))).map
        (fun b => ⟨b, 4/5 * ((len : ℚ) - (j + (List.indexOf b sem : ℚ)))⟩) := by
  induction sem with
  | nil => intro j; rfl
  | cons b rest ih =>
    intro j
    have hnr : b ∉ rest := (List.nodup_cons.mp hnd).1
    have htail : ∀ c ∈ rest.filter (fun x => decide (x ∉ ids)),
        (⟨c, 4/5 * ((len : ℚ) - (((j + 1 : ℕ) : ℚ) + (List.indexOf c rest : ℚ)))⟩ : Entry) =
        ⟨c, 4/5 * ((len : ℚ) - (j + (List.indexOf c (b :: rest) : ℚ)))⟩ := by
      intro c hc
      have hcr : c ∈ rest := List.mem_of_mem_filter hc
      have hbc : b ≠ c := fun h => hnr (h ▸ hcr)
      rw [List.indexOf_cons_ne _ hbc]
      congr 1
      push_cast
      ring
    simp only [semOnlyEntries, List.filter_cons]
    by_cases hb : b ∈ ids
    · rw [if_pos hb, if_neg (by simp [hb]), ih (List.nodup_cons.mp hnd).2 (j + 1)]
      exact List.map_congr_left htail
    · rw [if_neg hb, if_pos (by simp [hb]), List.map_cons,
        ih (List.nodup_cons.mp hnd).2 (j + 1)]
      congr 1
      · rw [List.indexOf_cons_self]
        norm_num
      · exact List.map_congr_left htail

/-- The merged entry list equals the spec-side union scored by `specScore`. -/
lemma mergeEntries_eq (kw sem : List ℕ) (hkw : kw.Nodup) (hsem : sem.Nodup) :
    semLoop sem.length 0 (kwLoop kw.length 0 [] kw) sem =
      (kw ++ sem.filter (fun a => decide (a ∉ kw))).map
        (fun a => Entry.mk a (specScore kw sem a)) := by
  rw [kwLoop_eq kw.length kw 0 [] hkw (by simp), List.nil_append,
    semLoop_eq _ sem 0 _ hsem, kwEntriesFrom_map_id, List.map_append]
  congr 1
  · rw [kwEntriesFrom_eq_map _ _ hkw 0, List.map_map]
    refine List.map_congr_left fun a ha => ?_
    simp only [Function.comp_apply]
    rw [semBoost_eq_indexOf hsem]
    unfold specScore
    rw [if_pos ha]
    by_cases hsa : a ∈ sem
    · rw [if_pos hsa, if_pos hsa, if_pos ha]
      congr 1
      push_cast
      ring
    · rw [if_neg hsa, if_neg hsa]
      congr 1
      push_cast
      ring
  · rw [semOnlyEntries_eq_filter hsem]
    refine List.map_congr_left fun a ha => ?_
    have hain : a ∈ sem := List.mem_of_mem_filter ha
    have hank : a ∉ kw := by simpa using (List.mem_filter.mp ha).2
    unfold specScore
    rw [if_neg hank, if_pos hain, if_neg hank]
    congr 1
    push_cast
    ring

/-- C3: merging assigns each keyword item at rank `i` the score
`kw_len - i`, adds `(sem_len - j) * 1.5` to keyword items also found at
semantic rank `j`, inserts semantic-only items with `(sem_len - j) * 0.8`,
sorts the union by final score descending, truncates to the limit and strips
the score.  In the concrete scenario `[A,B,C] = [0,1,2]`, `[B,D] = [1,3]`,
limit 10: B outranks A, C and D, and D scores 0.8. -/
theorem mergeResults_eq_spec :
    (∀ (kw sem : List ℕ) (limit : ℕ), kw.Nodup → sem.Nodup →
      mergeResults kw sem limit = specMerge kw sem limit) ∧
    mergeResults [0, 1, 2] [1, 3] 10 = [1, 0, 2, 3] ∧
    specScore [0, 1, 2] [1, 3] 3 = 4/5 := by
  refine ⟨?_, ?_, ?_⟩
  · intro kw sem limit hkw hsem
    unfold mergeResults specMerge
    rw [mergeEntries_eq kw sem hkw hsem]
  · norm_num [mergeResults, kwLoop, semLoop, mapSet, sortDescBy, insertDescBy]
  · have h1 : List.indexOf 3 [1, 3] = 1 := rfl
    norm_num [specScore, h1]

/-- Witness for C3: the refinement holds at the concrete scenario, whose
lists have distinct ids. -/
theorem mergeResults_eq_spec_witness :
    mergeResults [0, 1, 2] [1, 3] 10 = specMerge [0, 1, 2] [1, 3] 10 :=
  mergeResults_eq_spec.1 [0, 1, 2] [1, 3] 10 (by decide) (by decide)

/-! ## Theme clusterer (`trigger/src/lib/themes.ts`)

Embeddings are rational vectors; titles and ids are naturals.  The code
compares `cosineSimilarity(a, b) >= threshold` where the similarity is
`dot / (sqrt(normA) * sqrt(normB))`.  Square roots are not rational, so the
executable embedding `cosineGE` decides that comparison through the
equivalent sign-and-square test; `cosineGE_iff_real` below proves it agrees
with the real-valued formula of the source for any positive threshold. -/

/-- A content row with a non-null embedding, as fetched by
`detectThemesForTopic`. -/
structure ContentEmb where
  id : ℕ
  title : ℕ
  source_id : ℕ
  embedding : List ℚ
  deriving DecidableEq, Repr

/-- A cluster under construction (`ContentCluster` in the source); the JS
`Set` of source ids is a `Finset`. -/
structure ContentCluster where
  contentIds : List ℕ
  sourceIds : Finset ℕ
  titles : List ℕ
  deriving DecidableEq

/-- A returned theme candidate. -/
structure ThemeCandidate where
  title : ℕ
  contentIds : List ℕ
  sourceCount : ℕ
  deriving DecidableEq

/-- The dot product loop of `cosineSimilarity` (the norms are
`dotProduct a a` and `dotProduct b b`). -/
def dotProduct (a b : List ℚ) : ℚ := ((a.zip b).map (fun p => p.1 * p.2)).sum

/-- Decides `cosineSimilarity(a, b) ≥ τ` for a positive `τ`: mismatched
lengths or a zero magnitude give similarity 0 (hence `0 ≥ τ`); otherwise
`dot / (√normA * √normB) ≥ τ` iff `dot ≥ 0` and `τ² * normA * normB ≤ dot²`. -/
def cosineGE (τ : ℚ) (a b : List ℚ) : Bool :=
  if a.length ≠ b.length then decide (0 ≥ τ)
  else if dotProduct a a * dotProduct b b = 0 then decide (0 ≥ τ)
  else decide (0 ≤ dotProduct a b ∧
    τ ^ 2 * (dotProduct a a * dotProduct b b) ≤ dotProduct a b ^ 2)

/-- The inner loop of `clusterContentBySimilarity`: scan all content and
absorb any still-unassigned item whose similarity to the seed passes the
threshold, extending the cluster and the assigned set. -/
def absorb (τ : ℚ) (seed : ContentEmb) :
    List ContentEmb → ContentCluster → Finset ℕ → ContentCluster × Finset ℕ
  | [], cl, asg => (cl, asg)
  | other :: rest, cl, asg =>
    if other.id ∈ asg then absorb τ seed rest cl asg
    else if cosineGE τ seed.embedding other.embedding then
      absorb τ seed rest
        ⟨cl.contentIds ++ [other.id], insert other.source_id cl.sourceIds,
          cl.titles ++ [other.title]⟩
        (insert other.id asg)
    else absorb τ seed rest cl asg

/-- The outer loop of `clusterContentBySimilarity`: each unassigned item
seeds a cluster; clusters with more than one member are kept. -/
def clusterOuter (τ : ℚ) (content : List ContentEmb) :
    List ContentEmb → List ContentCluster → Finset ℕ → List ContentCluster × Finset ℕ
  | [], cls, asg => (cls, asg)
  | item :: rest, cls, asg =>
    if item.id ∈ asg then clusterOuter τ content rest cls asg
    else
      let r := absorb τ item content ⟨[item.id], {item.source_id}, [item.title]⟩
        (insert item.id asg)
      if 1 < r.1.contentIds.length then clusterOuter τ content rest (cls ++ [r.1]) r.2
      else clusterOuter τ content rest cls r.2

/-- Exact translation of `clusterContentBySimilarity`: greedy clustering
followed by the stable sort on distinct-source count, descending. -/
def clusterContentBySimilarity (content : List ContentEmb) (τ : ℚ) : List ContentCluster :=
  sortDescBy (fun c => c.sourceIds.card) (clusterOuter τ content content [] ∅).1

/-- The pure core of `detectThemesForTopic` after the fetch: fewer than 3
embedded items yield nothing; otherwise cluster at τ = 0.8, keep clusters
with at least 3 distinct sources, keep the top 5, and attach titles (title
generation is the external collaborator `titleOf`). -/
def detectThemesForTopicPure (content : List ContentEmb)
    (titleOf : ContentCluster → ℕ) : List ThemeCandidate :=
  if content.length < 3 then []
  else
    ((((clusterContentBySimilarity content (4/5)).filter
        (fun c => decide (3 ≤ c.sourceIds.card))).take 5).map
      (fun c => ⟨titleOf c, c.contentIds, c.sourceIds.card⟩))

/-! ### The absorb loop, characterized -/

/-- What the inner scan absorbs, when ids are distinct: exactly the
still-unassigned items passing the threshold test against the seed. -/
lemma absorb_spec (τ : ℚ) (seed : ContentEmb) (content : List ContentEmb) :
    ∀ (cl : ContentCluster) (asg : Finset ℕ), (content.map ContentEmb.id).Nodup →
    absorb τ seed content cl asg =
      (⟨cl.contentIds ++ ((content.filter (fun o =>
          decide (o.id ∉ asg) && cosineGE τ seed.embedding o.embedding)).map ContentEmb.id),
        cl.sourceIds ∪ ((content.filter (fun o =>
          decide (o.id ∉ asg) && cosineGE τ seed.embedding o.embedding)).map
            ContentEmb.source_id).toFinset,
        cl.titles ++ ((content.filter (fun o =>
          decide (o.id ∉ asg) && cosineGE τ seed.embedding o.embedding)).map
            ContentEmb.title)⟩,
       asg ∪ ((content.filter (fun o =>
          decide (o.id ∉ asg) && cosineGE τ seed.embedding o.embedding)).map
            ContentEmb.id).toFinset) := by
  induction content with
  | nil => intro cl asg _; simp [absorb]
  | cons o rest ih =>
    intro cl asg hnd
    have hnid : o.id ∉ rest.map ContentEmb.id := (List.nodup_cons.mp (by simpa using hnd)).1
    have hndr : (rest.map ContentEmb.id).Nodup := (List.nodup_cons.mp (by simpa using hnd)).2
    by_cases ho : o.id ∈ asg
    · have hfo : (decide (o.id ∉ asg) && cosineGE τ seed.embedding o.embedding) = false := by
        simp [ho]
      simp only [absorb, if_pos ho, List.filter_cons, hfo, Bool.false_eq_true, if_neg
        (by simp : ¬False)]
      rw [ih cl asg hndr]
    · by_cases hsim : cosineGE τ seed.embedding o.embedding
      · have hfo : (decide (o.id ∉ asg) && cosineGE τ seed.embedding o.embedding) = true := by
          simp [ho, hsim]
        have hfilter : ∀ r ∈ rest,
            (decide (r.id ∉ insert o.id asg) && cosineGE τ seed.embedding r.embedding) =
            (decide (r.id ∉ asg) && cosineGE τ seed.embedding r.embedding) := by
          intro r hr
          have : r.id ≠ o.id := fun h => hnid (h ▸ List.mem_map_of_mem ContentEmb.id hr)
          simp [Finset.mem_insert, this]
        simp only [absorb, if_neg ho, if_pos hsim, List.filter_cons, hfo, if_pos trivial]
        rw [ih _ _ hndr, List.filter_congr hfilter]
        simp only [List.map_cons, List.toFinset_cons, Prod.mk.injEq]
        refine ⟨?_, ?_⟩
        · simp only [ContentCluster.mk.injEq]
          refine ⟨by simp, ?_, by simp⟩
          rw [Finset.insert_union, Finset.union_insert]
        · rw [Finset.insert_union, Finset.union_insert]
      · have hfo : (decide (o.id ∉ asg) && cosineGE τ seed.embedding o.embedding) = false := by
          simp [hsim]
        simp only [absorb, if_neg ho, if_neg hsim, List.filter_cons, hfo, Bool.false_eq_true,
          if_neg (by simp : ¬False)]
        rw [ih cl asg hndr]

/-- Unconditionally, the inner scan extends the cluster by a sublist of the
content whose ids were unassigned and are pairwise distinct. -/
lemma absorb_members (τ : ℚ) (seed : ContentEmb) (content : List ContentEmb) :
    ∀ (cl : ContentCluster) (asg : Finset ℕ),
    ∃ extra : List ContentEmb,
      extra.Sublist content ∧
      (absorb τ seed content cl asg).1.contentIds =
        cl.contentIds ++ extra.map ContentEmb.id ∧
      (absorb τ seed content cl asg).1.sourceIds =
        cl.sourceIds ∪ (extra.map ContentEmb.source_id).toFinset ∧
      (absorb τ seed content cl asg).2 = asg ∪ (extra.map ContentEmb.id).toFinset ∧
      (∀ x ∈ extra, x.id ∉ asg) ∧ (extra.map ContentEmb.id).Nodup := by
  induction content with
  | nil =>
    intro cl asg
    refine ⟨[], List.Sublist.refl [], ?_, ?_, ?_, by simp, by simp⟩ <;> simp [absorb]
  | cons o rest ih =>
    intro cl asg
    by_cases ho : o.id ∈ asg
    · obtain ⟨extra, hsub, h1, h2, h3, h4, h5⟩ := ih cl asg
      refine ⟨extra, hsub.cons o, ?_, ?_, ?_, h4, h5⟩ <;>
        simp only [absorb, if_pos ho] <;> assumption
    · by_cases hsim : cosineGE τ seed.embedding o.embedding
      · obtain ⟨extra, hsub, h1, h2, h3, h4, h5⟩ := ih
          ⟨cl.contentIds ++ [o.id], insert o.source_id cl.sourceIds, cl.titles ++ [o.title]⟩
          (insert o.id asg)
        have hnotin : ∀ x ∈ extra, x.id ∉ asg ∧ x.id ≠ o.id := by
          intro x hx
          have := h4 x hx
          simp only [Finset.mem_insert, not_or] at this
          exact ⟨this.2, this.1⟩
        refine ⟨o :: extra, hsub.cons₂ o, ?_, ?_, ?_, ?_, ?_⟩
        · simp only [absorb, if_neg ho, if_pos hsim]
          rw [h1]
          simp
        · simp only [absorb, if_neg ho, if_pos hsim]
          rw [h2]
          simp only [List.map_cons, List.toFinset_cons]
          rw [Finset.insert_union, Finset.union_insert]
        · simp only [absorb, if_neg ho, if_pos hsim]
          rw [h3]
          simp only [List.map_cons, List.toFinset_cons]
          rw [Finset.insert_union, Finset.union_insert]
        · intro x hx
          rcases List.mem_cons.mp hx with rfl | hx
          · exact ho
          · exact (hnotin x hx).1
        · simp only [List.map_cons, List.nodup_cons]
          refine ⟨?_, h5⟩
          simp only [List.mem_map, not_exists, not_and]
          intro x hx hxid
          exact (hnotin x hx).2 hxid
      · obtain ⟨extra, hsub, h1, h2, h3, h4, h5⟩ := ih cl asg
        refine ⟨extra, hsub.cons o, ?_, ?_, ?_, h4, h5⟩ <;>
          simp only [absorb, if_neg ho, if_neg hsim] <;> assumption

/-! ### The stable descending sort, characterized -/

lemma insertDescBy_perm {α β : Type} [LinearOrder β] (key : α → β) (x : α) (l : List α) :
    (insertDescBy key x l).Perm (x :: l) := by
  induction l with
  | nil => exact List.Perm.refl _
  | cons y ys ih =>
    by_cases h : key x < key y
    · simp only [insertDescBy, if_pos h]
      exact (ih.cons y).trans (List.Perm.swap x y ys)
    · simp only [insertDescBy, if_neg h]
      exact List.Perm.refl _

lemma sortDescBy_perm {α β : Type} [LinearOrder β] (key : α → β) (l : List α) :
    (sortDescBy key l).Perm l := by
  induction l with
  | nil => exact List.Perm.refl _
  | cons x xs ih =>
    simp only [sortDescBy]
    exact (insertDescBy_perm key x (sortDescBy key xs)).trans (ih.cons x)

lemma insertDescBy_sorted {α β : Type} [LinearOrder β] (key : α → β) (x : α) {l : List α}
    (hl : List.Sorted (fun a b => key b ≤ key a) l) :
    List.Sorted (fun a b => key b ≤ key a) (insertDescBy key x l) := by
  induction l with
  | nil => simp [insertDescBy]
  | cons y ys ih =>
    rw [List.sorted_cons] at hl
    by_cases h : key x < key y
    · simp only [insertDescBy, if_pos h]
      rw [List.sorted_cons]
      refine ⟨?_, ih hl.2⟩
      intro b hb
      rcases List.mem_cons.mp ((insertDescBy_perm key x ys).mem_iff.mp hb) with rfl | hb
      · exact h.le
      · exact hl.1 b hb
    · simp only [insertDescBy, if_neg h]
      rw [List.sorted_cons]
      refine ⟨?_, List.sorted_cons.mpr hl⟩
      intro b hb
      rcases List.mem_cons.mp hb with rfl | hb
      · exact not_lt.mp h
      · exact le_trans (hl.1 b hb) (not_lt.mp h)

lemma sortDescBy_sorted {α β : Type} [LinearOrder β] (key : α → β) (l : List α) :
    List.Sorted (fun a b => key b ≤ key a) (sortDescBy key l) := by
  induction l with
  | nil => simp [sortDescBy]
  | cons x xs ih => exact insertDescBy_sorted key x ih

/-! ### The similarity test against the real-valued source formula -/

lemma dotProduct_self_nonneg (a : List ℚ) : 0 ≤ dotProduct a a := by
  induction a with
  | nil => simp [dotProduct]
  | cons x r ih =>
    have hx : 0 ≤ x * x := mul_self_nonneg x
    simp only [dotProduct, List.zip_cons_cons, List.map_cons, List.sum_cons] at ih ⊢
    linarith

/-- For a positive threshold, non-degenerate inputs: the executable test
`cosineGE` decides exactly `dot / (√normA * √normB) ≥ τ`, the comparison the
source performs on the value of `cosineSimilarity`. -/
lemma cosineGE_iff_real (τ : ℚ) (hτ : 0 < τ) (a b : List ℚ)
    (hlen : a.length = b.length) (hmag : dotProduct a a * dotProduct b b ≠ 0) :
    cosineGE τ a b = true ↔
      (τ : ℝ) ≤ ((dotProduct a b : ℚ) : ℝ) /
        (Real.sqrt ((dotProduct a a : ℚ) : ℝ) * Real.sqrt ((dotProduct b b : ℚ) : ℝ)) := by
  have hA0 : dotProduct a a ≠ 0 := fun h => hmag (by rw [h]; ring)
  have hB0 : dotProduct b b ≠ 0 := fun h => hmag (by rw [h]; ring)
  have hA : (0:ℝ) < ((dotProduct a a : ℚ) : ℝ) := by
    exact_mod_cast lt_of_le_of_ne (dotProduct_self_nonneg a) (Ne.symm hA0)
  have hB : (0:ℝ) < ((dotProduct b b : ℚ) : ℝ) := by
    exact_mod_cast lt_of_le_of_ne (dotProduct_self_nonneg b) (Ne.symm hB0)
  have hM : (0:ℝ) < Real.sqrt ((dotProduct a a : ℚ) : ℝ) *
      Real.sqrt ((dotProduct b b : ℚ) : ℝ) :=
    mul_pos (Real.sqrt_pos.mpr hA) (Real.sqrt_pos.mpr hB)
  have hM2 : (Real.sqrt ((dotProduct a a : ℚ) : ℝ) *
      Real.sqrt ((dotProduct b b : ℚ) : ℝ)) ^ 2 =
      ((dotProduct a a : ℚ) : ℝ) * ((dotProduct b b : ℚ) : ℝ) := by
    rw [mul_pow, Real.sq_sqrt hA.le, Real.sq_sqrt hB.le]
  have hτR : (0:ℝ) < (τ : ℝ) := by exact_mod_cast hτ
  rw [cosineGE, if_neg (by simp [hlen]), if_neg hmag, decide_eq_true_eq, le_div_iff₀ hM]
  constructor
  · rintro ⟨hd0, hsq⟩
    have hd0R : (0:ℝ) ≤ ((dotProduct a b : ℚ) : ℝ) := by exact_mod_cast hd0
    have hsqR : ((τ : ℝ)) ^ 2 * (((dotProduct a a : ℚ) : ℝ) * ((dotProduct b b : ℚ) : ℝ)) ≤
        ((dotProduct a b : ℚ) : ℝ) ^ 2 := by exact_mod_cast hsq
    nlinarith [mul_pos hτR hM, hM2, hsqR, hd0R]
  · intro h
    have hd0R : (0:ℝ) ≤ ((dotProduct a b : ℚ) : ℝ) := le_trans (mul_pos hτR hM).le h
    have hsqR : ((τ : ℝ) * (Real.sqrt ((dotProduct a a : ℚ) : ℝ) *
        Real.sqrt ((dotProduct b b : ℚ) : ℝ))) ^ 2 ≤ ((dotProduct a b : ℚ) : ℝ) ^ 2 :=
      pow_le_pow_left₀ (mul_pos hτR hM).le h 2
    rw [mul_pow, hM2] at hsqR
    refine ⟨by exact_mod_cast hd0R, ?_⟩
    exact_mod_cast hsqR

/-! ### Cluster invariants -/

/-- A cluster is backed by a nonempty member list drawn from the content:
its ids, sources and size all come from those members. -/
def goodCluster (content : List ContentEmb) (cl : ContentCluster) : Prop :=
  ∃ members : List ContentEmb, members ≠ [] ∧ (∀ m ∈ members, m ∈ content) ∧
    cl.contentIds = members.map ContentEmb.id ∧
    cl.sourceIds = (members.map ContentEmb.source_id).toFinset ∧
    1 < cl.contentIds.length

lemma clusterOuter_inv (τ : ℚ) (content : List ContentEmb) :
    ∀ (rest : List ContentEmb) (cls : List ContentCluster) (asg : Finset ℕ),
    (∀ x ∈ rest, x ∈ content) →
    (∀ cl ∈ cls, goodCluster content cl) →
    ((cls.map ContentCluster.contentIds).flatten).Nodup →
    (∀ i ∈ (cls.map ContentCluster.contentIds).flatten, i ∈ asg) →
    (∀ cl ∈ (clusterOuter τ content rest cls asg).1, goodCluster content cl) ∧
    (((clusterOuter τ content rest cls asg).1.map ContentCluster.contentIds).flatten).Nodup := by
  intro rest
  induction rest with
  | nil =>
    intro cls asg _ hgood hnd _
    exact ⟨hgood, hnd⟩
  | cons item rest' ih =>
    intro cls asg hrest hgood hnd hsub
    by_cases hitem : item.id ∈ asg
    · simp only [clusterOuter, if_pos hitem]
      exact ih cls asg (fun x hx => hrest x (by simp [hx])) hgood hnd hsub
    · obtain ⟨extra, hsubl, h1, h2, h3, h4, h5⟩ := absorb_members τ item content
        ⟨[item.id], {item.source_id}, [item.title]⟩ (insert item.id asg)
      have hextra_ne : ∀ x ∈ extra, x.id ∉ asg ∧ x.id ≠ item.id := by
        intro x hx
        have := h4 x hx
        simp only [Finset.mem_insert, not_or] at this
        exact ⟨this.2, this.1⟩
      simp only [clusterOuter, if_neg hitem]
      by_cases hlen : 1 <
          (absorb τ item content ⟨[item.id], {item.source_id}, [item.title]⟩
            (insert item.id asg)).1.contentIds.length
      · rw [if_pos hlen]
        refine ih (cls ++ [_]) _ (fun x hx => hrest x (by simp [hx])) ?_ ?_ ?_
        · intro cl hcl
          rcases List.mem_append.mp hcl with hcl | hcl
          · exact hgood cl hcl
          · simp only [List.mem_singleton] at hcl
            subst hcl
            refine ⟨item :: extra, by simp, ?_, ?_, ?_, hlen⟩
            · intro m hm
              rcases List.mem_cons.mp hm with rfl | hm
              · exact hrest m (by simp)
              · exact hsubl.subset hm
            · rw [h1]
              simp
            · rw [h2]
              simp only [List.map_cons, List.toFinset_cons]
              rw [← Finset.insert_eq]
        · rw [List.map_append, List.flatten_append]
          simp only [List.map_cons, List.map_nil, List.flatten_cons, List.flatten_nil,
            List.append_nil]
          rw [List.nodup_append]
          refine ⟨hnd, ?_, ?_⟩
          · rw [h1]
            simp only [List.singleton_append, List.nodup_cons]
            refine ⟨?_, h5⟩
            simp only [List.mem_map, not_exists, not_and]
            intro x hx hxid
            exact (hextra_ne x hx).2 hxid
          · intro i hi
            have hiasg := hsub i hi
            rw [h1]
            simp only [List.singleton_append, List.mem_cons, List.mem_map, not_or,
              not_exists, not_and]
            intro hor
            rcases hor with hieq | ⟨x, hx, hxid⟩
            · exact hitem (by rwa [← hieq])
            · exact (hextra_ne x hx).1 (by rwa [hxid])
        · intro i hi
          rw [List.map_append, List.flatten_append] at hi
          rw [h3]
          rcases List.mem_append.mp hi with hi | hi
          · exact Finset.mem_union_left _ (Finset.mem_insert_of_mem (hsub i hi))
          · simp only [List.map_cons, List.map_nil, List.flatten_cons, List.flatten_nil,
              List.append_nil] at hi
            rw [h1] at hi
            simp only [List.singleton_append] at hi
            rcases List.mem_cons.mp hi with rfl | hi
            · exact Finset.mem_union_left _ (Finset.mem_insert_self _ _)
            · exact Finset.mem_union_right _ (List.mem_toFinset.mpr hi)
      · rw [if_neg hlen]
        refine ih cls _ (fun x hx => hrest x (by simp [hx])) hgood hnd ?_
        intro i hi
        rw [h3]
        exact Finset.mem_union_left _ (Finset.mem_insert_of_mem (hsub i hi))

/-- In a family of clusters whose concatenated ids are duplicate-free, two
clusters sharing an id are the same cluster. -/
lemma cluster_eq_of_shared_id {cls : List ContentCluster}
    (hnd : ((cls.map ContentCluster.contentIds).flatten).Nodup) :
    ∀ c1 ∈ cls, ∀ c2 ∈ cls, ∀ i, i ∈ c1.contentIds → i ∈ c2.contentIds → c1 = c2 := by
  induction cls with
  | nil => simp
  | cons c rest ih =>
    simp only [List.map_cons, List.flatten_cons] at hnd
    rw [List.nodup_append] at hnd
    obtain ⟨hc, hrest, hdisj⟩ := hnd
    intro c1 hc1 c2 hc2 i hi1 hi2
    rcases List.mem_cons.mp hc1 with h1 | h1
    · rcases List.mem_cons.mp hc2 with h2 | h2
      · rw [h1, h2]
      · have hnot : i ∉ (rest.map ContentCluster.contentIds).flatten := hdisj (h1 ▸ hi1)
        exact absurd (List.mem_flatten.mpr
          ⟨c2.contentIds, List.mem_map_of_mem ContentCluster.contentIds h2, hi2⟩) hnot
    · rcases List.mem_cons.mp hc2 with h2 | h2
      · have hnot : i ∉ (rest.map ContentCluster.contentIds).flatten := hdisj (h2 ▸ hi2)
        exact absurd (List.mem_flatten.mpr
          ⟨c1.contentIds, List.mem_map_of_mem ContentCluster.contentIds h1, hi1⟩) hnot
      · exact ih hrest c1 h1 c2 h2 i hi1 hi2

/-- The sorted cluster list's members are good and have duplicate-free ids. -/
lemma clusterSim_inv (content : List ContentEmb) (τ : ℚ) :
    (∀ cl ∈ clusterContentBySimilarity content τ, goodCluster content cl) ∧
    (∀ c1 ∈ clusterContentBySimilarity content τ,
      ∀ c2 ∈ clusterContentBySimilarity content τ,
      ∀ i, i ∈ c1.contentIds → i ∈ c2.contentIds → c1 = c2) := by
  have hperm := sortDescBy_perm (fun c => c.sourceIds.card)
    (clusterOuter τ content content [] ∅).1
  have hinv := clusterOuter_inv τ content content [] ∅ (fun x hx => hx)
    (by simp) (by simp) (by simp)
  constructor
  · intro cl hcl
    exact hinv.1 cl (hperm.mem_iff.mp hcl)
  · intro c1 hc1 c2 hc2 i h1 h2
    exact cluster_eq_of_shared_id hinv.2 c1 (hperm.mem_iff.mp hc1) c2
      (hperm.mem_iff.mp hc2) i h1 h2

/-! ### Concrete clustering runs used by witnesses -/

/-- Three items with distinct ids and sources and identical embeddings. -/
def sampleContent3 : List ContentEmb :=
  [⟨0, 0, 0, [1, 0]⟩, ⟨1, 1, 1, [1, 0]⟩, ⟨2, 2, 2, [1, 0]⟩]

lemma cosineGE_one_zero_self : cosineGE (4/5) [1, 0] [1, 0] = true := by
  norm_num [cosineGE, dotProduct, List.zip_cons_cons]

lemma cluster_sample3 :
    clusterContentBySimilarity sampleContent3 (4/5) =
      [⟨[0, 1, 2], {2, 1, 0}, [0, 1, 2]⟩] := by
  norm_num [clusterContentBySimilarity, sampleContent3, clusterOuter, absorb,
    cosineGE_one_zero_self, sortDescBy, insertDescBy]

lemma detect_sample3 :
    detectThemesForTopicPure sampleContent3 (fun _ => 0) = [⟨0, [0, 1, 2], 3⟩] := by
  have hcard : ({2, 1, 0} : Finset ℕ).card = 3 := by decide
  unfold detectThemesForTopicPure
  rw [if_neg (by norm_num [sampleContent3]), cluster_sample3]
  simp [hcard]

/-! ### The theme candidate theorems -/

/-- C4: every candidate has at least 2 members drawn from at least 3
distinct sources (its `sourceCount` is the distinct-source count of a member
list taken from the content); fewer than 3 embedded items yield no
candidates; at most 5 candidates are returned; and they are ordered by
distinct-source count, descending. -/
theorem themeCandidates_valid :
    ∀ (content : List ContentEmb) (titleOf : ContentCluster → ℕ),
      (∀ cand ∈ detectThemesForTopicPure content titleOf,
        2 ≤ cand.contentIds.length ∧ 3 ≤ cand.sourceCount ∧
        ∃ members : List ContentEmb, (∀ m ∈ members, m ∈ content) ∧
          cand.contentIds = members.map ContentEmb.id ∧
          cand.sourceCount = ((members.map ContentEmb.source_id).toFinset).card) ∧
      (content.length < 3 → detectThemesForTopicPure content titleOf = []) ∧
      (detectThemesForTopicPure content titleOf).length ≤ 5 ∧
      List.Sorted (fun t1 t2 => t2.sourceCount ≤ t1.sourceCount)
        (detectThemesForTopicPure content titleOf) := by
  intro content titleOf
  refine ⟨?_, ?_, ?_, ?_⟩
  · intro cand hcand
    unfold detectThemesForTopicPure at hcand
    by_cases h3 : content.length < 3
    · rw [if_pos h3] at hcand
      simp at hcand
    · rw [if_neg h3] at hcand
      obtain ⟨c, hc, rfl⟩ := List.mem_map.mp hcand
      have hcf : c ∈ (clusterContentBySimilarity content (4/5)).filter
          (fun c => decide (3 ≤ c.sourceIds.card)) := List.take_subset 5 _ hc
      have hcs : c ∈ clusterContentBySimilarity content (4/5) := List.mem_of_mem_filter hcf
      have hcard : 3 ≤ c.sourceIds.card := by
        have := (List.mem_filter.mp hcf).2
        simpa using this
      obtain ⟨members, _, hmem, hids, hsrc, hlen⟩ := (clusterSim_inv content (4/5)).1 c hcs
      exact ⟨hlen, hcard, members, hmem, hids, by rw [hsrc]⟩
  · intro h3
    unfold detectThemesForTopicPure
    rw [if_pos h3]
  · unfold detectThemesForTopicPure
    by_cases h3 : content.length < 3
    · rw [if_pos h3]
      simp
    · rw [if_neg h3]
      simp only [List.length_map]
      exact le_trans (List.length_take_le 5 _) (le_refl 5)
  · unfold detectThemesForTopicPure
    by_cases h3 : content.length < 3
    · rw [if_pos h3]
      simp
    · rw [if_neg h3]
      have hs := sortDescBy_sorted (fun c : ContentCluster => c.sourceIds.card)
        (clusterOuter (4/5) content content [] ∅).1
      have hsf : List.Sorted (fun c1 c2 : ContentCluster => c2.sourceIds.card ≤ c1.sourceIds.card)
          ((clusterContentBySimilarity content (4/5)).filter
            (fun c => decide (3 ≤ c.sourceIds.card))) :=
        List.Pairwise.sublist (List.filter_sublist _) hs
      have hst : List.Sorted (fun c1 c2 : ContentCluster => c2.sourceIds.card ≤ c1.sourceIds.card)
          (((clusterContentBySimilarity content (4/5)).filter
            (fun c => decide (3 ≤ c.sourceIds.card))).take 5) :=
        List.Pairwise.sublist (List.take_sublist 5 _) hsf
      exact List.pairwise_map.mpr hst

/-- Witness for C4: the three-item sample yields the single candidate with
3 members from 3 distinct sources. -/
theorem themeCandidates_valid_witness :
    2 ≤ (ThemeCandidate.mk 0 [0, 1, 2] 3).contentIds.length ∧
    3 ≤ (ThemeCandidate.mk 0 [0, 1, 2] 3).sourceCount ∧
    ∃ members : List ContentEmb, (∀ m ∈ members, m ∈ sampleContent3) ∧
      (ThemeCandidate.mk 0 [0, 1, 2] 3).contentIds = members.map ContentEmb.id ∧
      (ThemeCandidate.mk 0 [0, 1, 2] 3).sourceCount =
        ((members.map ContentEmb.source_id).toFinset).card :=
  (themeCandidates_valid sampleContent3 (fun _ => 0)).1 ⟨0, [0, 1, 2], 3⟩
    (by rw [detect_sample3]; simp)

/-- C6 (amended): when the content ids are distinct, the items absorbed into
an unassigned seed's cluster are exactly the other still-unassigned items
whose cosine similarity to the seed's embedding is at least τ — the
comparison is `≥ τ` (the source uses `similarity >= threshold`), against the
seed only.  The second conjunct grounds the executable test in the source's
real-valued formula `dot / (√normA * √normB) ≥ τ`. -/
theorem seed_absorbs_iff_ge :
    (∀ (τ : ℚ) (seed : ContentEmb) (content : List ContentEmb) (asg : Finset ℕ),
      (content.map ContentEmb.id).Nodup →
      (absorb τ seed content ⟨[seed.id], {seed.source_id}, [seed.title]⟩
          (insert seed.id asg)).1.contentIds =
        seed.id :: (content.filter (fun o => decide (o.id ∉ insert seed.id asg) &&
          cosineGE τ seed.embedding o.embedding)).map ContentEmb.id) ∧
    (∀ (τ : ℚ) (a b : List ℚ), 0 < τ → a.length = b.length →
      dotProduct a a * dotProduct b b ≠ 0 →
      (cosineGE τ a b = true ↔
        (τ : ℝ) ≤ ((dotProduct a b : ℚ) : ℝ) /
          (Real.sqrt ((dotProduct a a : ℚ) : ℝ) *
            Real.sqrt ((dotProduct b b : ℚ) : ℝ)))) := by
  constructor
  · intro τ seed content asg hnd
    rw [absorb_spec τ seed content _ _ hnd]
    simp
  · exact fun τ a b hτ hlen hmag => cosineGE_iff_real τ hτ a b hlen hmag

/-- Witness for C6: one candidate item, unassigned, at similarity exactly
0.8 to the seed, is absorbed. -/
theorem seed_absorbs_iff_ge_witness :
    (absorb (4/5) ⟨0, 0, 0, [1, 0]⟩ [⟨1, 1, 1, [4/5, 3/5]⟩] ⟨[0], {0}, [0]⟩
        (insert 0 ∅)).1.contentIds =
      0 :: ([(⟨1, 1, 1, [4/5, 3/5]⟩ : ContentEmb)].filter
        (fun o => decide (o.id ∉ insert 0 (∅ : Finset ℕ)) &&
          cosineGE (4/5) [1, 0] o.embedding)).map ContentEmb.id :=
  seed_absorbs_iff_ge.1 (4/5) ⟨0, 0, 0, [1, 0]⟩ [⟨1, 1, 1, [4/5, 3/5]⟩] ∅ (by simp)

/-- Counterexample for C6 as stated: the claim says items are absorbed when
their similarity exceeds τ = 0.8; the code absorbs at `>=`.  With seed
embedding `[1, 0]` and candidate embedding `[0.8, 0.6]` the real cosine
similarity is exactly 0.8 — it does not exceed 0.8 — yet the candidate is
absorbed into the seed's cluster. -/
theorem seed_absorbs_at_threshold_counterexample :
    (clusterContentBySimilarity [⟨0, 0, 0, [1, 0]⟩, ⟨1, 1, 1, [4/5, 3/5]⟩] (4/5)).map
        ContentCluster.contentIds = [[0, 1]] ∧
    ((dotProduct [1, 0] [4/5, 3/5] : ℚ) : ℝ) /
        (Real.sqrt ((dotProduct [1, 0] [1, 0] : ℚ) : ℝ) *
          Real.sqrt ((dotProduct [4/5, 3/5] [4/5, 3/5] : ℚ) : ℝ)) = 4/5 ∧
    ¬((4:ℝ)/5 > 4/5) := by
  have hc : cosineGE (4/5) [1, 0] [4/5, 3/5] = true := by
    norm_num [cosineGE, dotProduct, List.zip_cons_cons]
  refine ⟨?_, ?_, by norm_num⟩
  · norm_num [clusterContentBySimilarity, clusterOuter, absorb, hc,
      sortDescBy, insertDescBy]
  · have h1 : (dotProduct [1, 0] [4/5, 3/5] : ℚ) = 4/5 := by
      norm_num [dotProduct, List.zip_cons_cons]
    have h2 : (dotProduct [1, 0] [1, 0] : ℚ) = 1 := by
      norm_num [dotProduct, List.zip_cons_cons]
    have h3 : (dotProduct [4/5, 3/5] [4/5, 3/5] : ℚ) = 1 := by
      norm_num [dotProduct, List.zip_cons_cons]
    rw [h1, h2, h3]
    norm_num [Real.sqrt_one]

/-- C10: two clusters produced by one clustering run that share a content id
are the same cluster, and two theme candidates of one detection run that
share a content id are the same candidate. -/
theorem clusters_share_no_id :
    (∀ (content : List ContentEmb) (τ : ℚ),
      ∀ c1 ∈ clusterContentBySimilarity content τ,
      ∀ c2 ∈ clusterContentBySimilarity content τ,
      ∀ i, i ∈ c1.contentIds → i ∈ c2.contentIds → c1 = c2) ∧
    (∀ (content : List ContentEmb) (titleOf : ContentCluster → ℕ),
      ∀ t1 ∈ detectThemesForTopicPure content titleOf,
      ∀ t2 ∈ detectThemesForTopicPure content titleOf,
      ∀ i, i ∈ t1.contentIds → i ∈ t2.contentIds → t1 = t2) := by
  refine ⟨fun content τ => (clusterSim_inv content τ).2, ?_⟩
  intro content titleOf t1 ht1 t2 ht2 i h1 h2
  unfold detectThemesForTopicPure at ht1 ht2
  by_cases h3 : content.length < 3
  · rw [if_pos h3] at ht1
    simp at ht1
  · rw [if_neg h3] at ht1 ht2
    obtain ⟨c1, hc1, rfl⟩ := List.mem_map.mp ht1
    obtain ⟨c2, hc2, rfl⟩ := List.mem_map.mp ht2
    have hc1' : c1 ∈ clusterContentBySimilarity content (4/5) :=
      List.mem_of_mem_filter (List.take_subset 5 _ hc1)
    have hc2' : c2 ∈ clusterContentBySimilarity content (4/5) :=
      List.mem_of_mem_filter (List.take_subset 5 _ hc2)
    have heq := (clusterSim_inv content (4/5)).2 c1 hc1' c2 hc2' i h1 h2
    rw [heq]

/-- Witness for C10 at the three-item sample: the only cluster shares id 0
with itself and is equal to itself. -/
theorem clusters_share_no_id_witness :
    (⟨[0, 1, 2], {2, 1, 0}, [0, 1, 2]⟩ : ContentCluster) =
      ⟨[0, 1, 2], {2, 1, 0}, [0, 1, 2]⟩ :=
  clusters_share_no_id.1 sampleContent3 (4/5)
    ⟨[0, 1, 2], {2, 1, 0}, [0, 1, 2]⟩ (by rw [cluster_sample3]; simp)
    ⟨[0, 1, 2], {2, 1, 0}, [0, 1, 2]⟩ (by rw [cluster_sample3]; simp)
    0 (by simp) (by simp)

/-! ## Digest assembler (`trigger/src/lib/digest.ts`) -/

/-- A fetched content row for digest generation: id, source, the joined
source's quality score (absent when the join is null), publish timestamp. -/
structure DigestItem where
  id : ℕ
  source_id : ℕ
  quality_score : Option ℚ
  published_at : ℕ
  deriving DecidableEq, Repr

/-- The `ContentScore` record built for each candidate. -/
structure ContentScore where
  id : ℕ
  sourceId : ℕ
  qualityScore : ℚ
  publishedAt : ℕ
  score : ℚ
  deriving DecidableEq, Repr

/-- The scoring map of `generateUserDigest`: quality (defaulted to 50) plus
a flat +20 recency boost, all items being within 24 hours. -/
def scoreContentItems (content : List DigestItem) : List ContentScore :=
  content.map (fun it =>
    ⟨it.id, it.source_id, it.quality_score.getD 50, it.published_at,
      it.quality_score.getD 50 + 20⟩)

/-- The diversity loop: select an item while its source has been used fewer
than 2 times; stop as soon as 10 items are selected. -/
def selectLoop : List ContentScore → (ℕ → ℕ) → List ContentScore → List ContentScore
  | [], _, sel => sel
  | item :: rest, counts, sel =>
    let currentCount := counts item.sourceId
    let sel' := if currentCount < 2 then sel ++ [item] else sel
    let counts' := if currentCount < 2 then
        (fun s => if s = item.sourceId then currentCount + 1 else counts s)
      else counts
    if 10 ≤ sel'.length then sel' else selectLoop rest counts' sel'

/-- The selection performed on a candidate pool: score, sort descending,
walk greedily under the diversity caps. -/
def digestSelection (content : List DigestItem) : List ContentScore :=
  selectLoop (sortDescBy ContentScore.score (scoreContentItems content)) (fun _ => 0) []

/-- The pure core of `generateUserDigest`: empty inputs (no followed topics,
no mapped sources, no recent content) give an empty digest; otherwise the
selected ids. -/
def generateUserDigestPure (userTopicIds : List ℕ) (sourceMappings : List (ℕ × ℕ))
    (content : List DigestItem) : List ℕ :=
  if userTopicIds.isEmpty then []
  else if sourceMappings.isEmpty then []
  else if content.isEmpty then []
  else (digestSelection content).map ContentScore.id

/-- Invariant of the diversity loop: with per-source counts matching the
selection and bounded by 2, and fewer than 10 selected, the final selection
has at most 10 items and at most 2 per source. -/
lemma selectLoop_inv :
    ∀ (items : List ContentScore) (counts : ℕ → ℕ) (sel : List ContentScore),
    sel.length ≤ 9 →
    (∀ s, (sel.filter (fun it => decide (it.sourceId = s))).length = counts s) →
    (∀ s, counts s ≤ 2) →
    (selectLoop items counts sel).length ≤ 10 ∧
    (∀ s, ((selectLoop items counts sel).filter
      (fun it => decide (it.sourceId = s))).length ≤ 2) := by
  intro items
  induction items with
  | nil =>
    intro counts sel hlen hcounts hbound
    refine ⟨by simpa [selectLoop] using le_trans hlen (by norm_num), ?_⟩
    intro s
    simpa [selectLoop, hcounts s] using hbound s
  | cons item rest ih =>
    intro counts sel hlen hcounts hbound
    simp only [selectLoop]
    by_cases hc : counts item.sourceId < 2
    · simp only [if_pos hc]
      have hcounts' : ∀ s, ((sel ++ [item]).filter
          (fun it => decide (it.sourceId = s))).length =
          (fun s => if s = item.sourceId then counts item.sourceId + 1 else counts s) s := by
        intro s
        rw [List.filter_append, List.length_append]
        by_cases hs : s = item.sourceId
        · subst hs
          simp [hcounts item.sourceId]
        · have : item.sourceId ≠ s := fun h => hs h.symm
          simp [this, hs, hcounts s]
      have hbound' : ∀ s,
          (fun s => if s = item.sourceId then counts item.sourceId + 1 else counts s) s ≤ 2 := by
        intro s
        by_cases hs : s = item.sourceId
        · simp [hs]
          omega
        · simp [hs]
          exact hbound s
      by_cases hstop : 10 ≤ (sel ++ [item]).length
      · rw [if_pos hstop]
        refine ⟨by simp; omega, ?_⟩
        intro s
        rw [hcounts' s]
        exact hbound' s
      · rw [if_neg hstop]
        refine ih _ _ ?_ hcounts' hbound'
        simp only [List.length_append, List.length_cons, List.length_nil] at hstop ⊢
        omega
    · simp only [if_neg hc]
      by_cases hstop : 10 ≤ sel.length
      · rw [if_pos hstop]
        refine ⟨by omega, ?_⟩
        intro s
        rw [hcounts s]
        exact hbound s
      · rw [if_neg hstop]
        exact ih _ _ (by omega) hcounts hbound

/-- C5: the digest selection never exceeds 10 items nor 2 items per source,
the returned digest has at most 10 entries, and a user following no topics
gets an empty digest. -/
theorem digest_bounds :
    (∀ content : List DigestItem,
      (digestSelection content).length ≤ 10 ∧
      ∀ s, ((digestSelection content).filter
        (fun it => decide (it.sourceId = s))).length ≤ 2) ∧
    (∀ (userTopicIds : List ℕ) (sourceMappings : List (ℕ × ℕ)) (content : List DigestItem),
      (generateUserDigestPure userTopicIds sourceMappings content).length ≤ 10) ∧
    (∀ (sourceMappings : List (ℕ × ℕ)) (content : List DigestItem),
      generateUserDigestPure [] sourceMappings content = []) := by
  have hsel : ∀ content : List DigestItem,
      (digestSelection content).length ≤ 10 ∧
      ∀ s, ((digestSelection content).filter
        (fun it => decide (it.sourceId = s))).length ≤ 2 := by
    intro content
    exact selectLoop_inv _ (fun _ => 0) [] (by simp) (by simp) (by simp)
  refine ⟨hsel, ?_, ?_⟩
  · intro uts sms content
    unfold generateUserDigestPure
    by_cases h1 : uts.isEmpty
    · simp [h1]
    by_cases h2 : sms.isEmpty
    · simp [h1, h2]
    by_cases h3 : content.isEmpty
    · simp [h1, h2, h3]
    · simp only [h1, h2, h3, Bool.false_eq_true, if_neg (by simp : ¬False), List.length_map]
      exact (hsel content).1
  · intro sms content
    unfold generateUserDigestPure
    simp

/-! ## Digest idempotence (`send-digests.ts` + `hasDigestForToday`) -/

/-- The digests table: rows of (user_id, date, content_ids). -/
structure DigestStore where
  rows : List (ℕ × ℕ × List ℕ)
  deriving DecidableEq, Repr

/-- `hasDigestForToday`: a row for (user, date) exists. -/
def hasDigestForToday (store : DigestStore) (userId date : ℕ) : Bool :=
  store.rows.any (fun r => decide (r.1 = userId) && decide (r.2.1 = date))

/-- `storeDigest`: a plain insert of a new digest row. -/
def storeDigest (store : DigestStore) (userId date : ℕ) (contentIds : List ℕ) : DigestStore :=
  ⟨store.rows ++ [(userId, date, contentIds)]⟩

/-- The per-user body of the `sendDigests` loop: skip if a digest exists for
(user, today); skip if the generated digest is empty; otherwise insert. -/
def processUserDigest (store : DigestStore) (userId date : ℕ) (gen : List ℕ) : DigestStore :=
  if hasDigestForToday store userId date then store
  else if gen.isEmpty then store
  else storeDigest store userId date gen

/-- Number of digest rows for (user, date). -/
def countDigests (store : DigestStore) (userId date : ℕ) : ℕ :=
  (store.rows.filter (fun r => decide (r.1 = userId) && decide (r.2.1 = date))).length

lemma countDigests_eq_zero_of_not_has {store : DigestStore} {u d : ℕ}
    (h : hasDigestForToday store u d = false) : countDigests store u d = 0 := by
  unfold hasDigestForToday at h
  rw [List.any_eq_false] at h
  unfold countDigests
  rw [List.length_eq_zero, List.filter_eq_nil_iff]
  intro r hr
  simpa using h r hr

/-- C8: digest generation is idempotent per (user, date): an existing digest
row makes the job skip entirely; the store only ever grows by appended rows
(never overwriting); a run leaves at most one row for the (user, date) key
(given at most one before); and running the per-user body twice equals
running it once. -/
theorem digest_idempotent :
    (∀ (store : DigestStore) (u d : ℕ) (g : List ℕ),
      hasDigestForToday store u d = true → processUserDigest store u d g = store) ∧
    (∀ (store : DigestStore) (u d : ℕ) (g : List ℕ),
      ∃ suffix, (processUserDigest store u d g).rows = store.rows ++ suffix) ∧
    (∀ (store : DigestStore) (u d : ℕ) (g : List ℕ),
      countDigests (processUserDigest store u d g) u d ≤ max 1 (countDigests store u d)) ∧
    (∀ (store : DigestStore) (u d : ℕ) (g g' : List ℕ),
      countDigests (processUserDigest (processUserDigest store u d g) u d g') u d ≤
        max 1 (countDigests store u d)) ∧
    (∀ (store : DigestStore) (u d : ℕ) (g : List ℕ),
      processUserDigest (processUserDigest store u d g) u d g =
        processUserDigest store u d g) := by
  have hskip : ∀ (store : DigestStore) (u d : ℕ) (g : List ℕ),
      hasDigestForToday store u d = true → processUserDigest store u d g = store := by
    intro store u d g h
    unfold processUserDigest
    rw [if_pos h]
  have hcount : ∀ (store : DigestStore) (u d : ℕ) (g : List ℕ),
      countDigests (processUserDigest store u d g) u d ≤ max 1 (countDigests store u d) := by
    intro store u d g
    unfold processUserDigest
    by_cases h : hasDigestForToday store u d
    · rw [if_pos h]
      exact le_max_right _ _
    · rw [if_neg h]
      by_cases hg : g.isEmpty
      · rw [if_pos hg]
        exact le_max_right _ _
      · rw [if_neg hg]
        have hfalse : hasDigestForToday store u d = false := by simpa using h
        have h0 := countDigests_eq_zero_of_not_has hfalse
        unfold countDigests at h0 ⊢
        simp [storeDigest, List.filter_append, h0]
  refine ⟨hskip, ?_, hcount, ?_, ?_⟩
  · intro store u d g
    unfold processUserDigest
    by_cases h : hasDigestForToday store u d
    · rw [if_pos h]
      exact ⟨[], by simp⟩
    · rw [if_neg h]
      by_cases hg : g.isEmpty
      · rw [if_pos hg]
        exact ⟨[], by simp⟩
      · rw [if_neg hg]
        exact ⟨[(u, d, g)], rfl⟩
  · intro store u d g g'
    by_cases h : hasDigestForToday store u d
    · rw [hskip store u d g h]
      exact hcount store u d g'
    · unfold processUserDigest
      rw [if_neg h]
      by_cases hg : g.isEmpty
      · rw [if_pos hg]
        rw [show (if hasDigestForToday store u d then store
            else if g'.isEmpty then store else storeDigest store u d g') =
            processUserDigest store u d g' from rfl]
        exact hcount store u d g'
      · rw [if_neg hg]
        have hhas : hasDigestForToday (storeDigest store u d g) u d = true := by
          unfold hasDigestForToday storeDigest
          simp
        rw [if_pos hhas]
        have hfalse : hasDigestForToday store u d = false := by simpa using h
        have h0 := countDigests_eq_zero_of_not_has hfalse
        unfold countDigests at h0 ⊢
        simp [storeDigest, List.filter_append, h0]
  · intro store u d g
    by_cases h : hasDigestForToday store u d
    · rw [hskip store u d g h, hskip store u d g h]
    · unfold processUserDigest
      rw [if_neg h]
      by_cases hg : g.isEmpty
      · rw [if_pos hg, if_neg h, if_pos hg]
      · rw [if_neg hg]
        have hhas : hasDigestForToday (storeDigest store u d g) u d = true := by
          unfold hasDigestForToday storeDigest
          simp
        rw [if_pos hhas]

/-- Witness for C8: with a digest row already present for user 7 on date 1,
the body leaves the store unchanged. -/
theorem digest_idempotent_witness :
    processUserDigest ⟨[(7, 1, [5])]⟩ 7 1 [9] = ⟨[(7, 1, [5])]⟩ :=
  digest_idempotent.1 ⟨[(7, 1, [5])]⟩ 7 1 [9] (by decide)

/-! ## Theme job failure semantics (`trigger/src/jobs/detect-themes.ts`)

The storage and title collaborators are modelled as `Except`-valued
functions; throwing is the `error` case.  `storeTheme` rethrows its error,
so inside one topic's candidate loop a failure aborts the remaining
candidates; the `try/catch` sits at the per-topic level. -/

/-- The counters the job accumulates. -/
structure JobResult where
  topicsProcessed : ℕ
  topicsWithThemes : ℕ
  totalThemesCreated : ℕ
  failed : ℕ
  deriving DecidableEq, Repr

/-- Pointwise addition of job counters. -/
def addJobResult (a b : JobResult) : JobResult :=
  ⟨a.topicsProcessed + b.topicsProcessed, a.topicsWithThemes + b.topicsWithThemes,
    a.totalThemesCreated + b.totalThemesCreated, a.failed + b.failed⟩

/-- The `for (const theme of themeCandidates)` loop with the throwing
`storeTheme`: returns how many candidates were stored and whether a
failure aborted the loop. -/
def storeCandsLoop {α : Type} (store : α → Except Unit ℕ) : List α → ℕ × Bool
  | [] => (0, false)
  | c :: rest =>
    match store c with
    | .ok _ => ((storeCandsLoop store rest).1 + 1, (storeCandsLoop store rest).2)
    | .error _ => (0, true)

/-- One topic inside the `try/catch`: a detect failure or a store failure is
caught at this boundary and counted as one failed topic; themes stored
before the failure still count. -/
def processTopic {α : Type} (detect : ℕ → Except Unit (List α))
    (store : α → Except Unit ℕ) (t : ℕ) : JobResult :=
  match detect t with
  | .error _ => ⟨0, 0, 0, 1⟩
  | .ok cands =>
    if cands.isEmpty then ⟨1, 0, 0, 0⟩
    else if (storeCandsLoop store cands).2 then ⟨0, 0, (storeCandsLoop store cands).1, 1⟩
    else ⟨1, 1, (storeCandsLoop store cands).1, 0⟩

/-- The `for (const topic of topics)` loop with its running counters. -/
def runDetectThemesLoop {α : Type} (detect : ℕ → Except Unit (List α))
    (store : α → Except Unit ℕ) : List ℕ → JobResult → JobResult
  | [], acc => acc
  | t :: rest, acc =>
    runDetectThemesLoop detect store rest (addJobResult acc (processTopic detect store t))

/-- The whole sweep. -/
def runDetectThemes {α : Type} (detect : ℕ → Except Unit (List α))
    (store : α → Except Unit ℕ) (topics : List ℕ) : JobResult :=
  runDetectThemesLoop detect store topics ⟨0, 0, 0, 0⟩

/-- Model of `generateThemeTitle`: the text-generation collaborator either
returns a subtitle (possibly empty) or throws; the `catch` and the
empty-subtitle check both fall back to the plain `Trending in {topic}`. -/
inductive ThemeTitle where
  | withSubtitle (topicName subtitle : ℕ)
  | fallback (topicName : ℕ)
  deriving DecidableEq, Repr

/-- Exact shape of `generateThemeTitle`'s control flow. -/
def generateThemeTitle (topicName : ℕ) (response : Except Unit (Option ℕ)) : ThemeTitle :=
  match response with
  | .ok (some s) => .withSubtitle topicName s
  | .ok none => .fallback topicName
  | .error _ => .fallback topicName

/-- Counterexample for C9 as stated: one topic with two candidates; storing
the first fails while storing the second would succeed.  The run creates no
theme at all — the second candidate of the same topic is never stored — so a
persistence failure does abort the remaining candidates of that topic (it is
still caught and counted at the topic boundary, leaving failed = 1). -/
theorem store_failure_aborts_same_topic :
    runDetectThemes (fun _ => Except.ok [0, 1])
      (fun c => if c = 0 then Except.error () else Except.ok c) [5] =
      ⟨0, 0, 0, 1⟩ ∧
    (fun c : ℕ => if c = 0 then Except.error () else Except.ok c) 1 = Except.ok 1 := by
  constructor
  · rfl
  · rfl

/-- C9 (amended): a store failure for one candidate aborts only the
remaining candidates of the same topic; the sweep is a fold of per-topic
results, so one topic's failure cannot affect another topic's outcome, and
the failed topic is counted (failed = 1) rather than rethrown; a
title-generation failure never aborts anything — it falls back to the
generic title. -/
theorem detectThemes_failure_isolation :
    (∀ (α : Type) (store : α → Except Unit ℕ) (c : α) (rest : List α),
      store c = Except.error () → storeCandsLoop store (c :: rest) = (0, true)) ∧
    (∀ (α : Type) (detect : ℕ → Except Unit (List α)) (store : α → Except Unit ℕ)
      (topics : List ℕ) (acc : JobResult),
      runDetectThemesLoop detect store topics acc =
        (topics.map (processTopic detect store)).foldl addJobResult acc) ∧
    (∀ n : ℕ, generateThemeTitle n (Except.error ()) = ThemeTitle.fallback n) ∧
    (∀ (α : Type) (detect : ℕ → Except Unit (List α)) (store : α → Except Unit ℕ)
      (t : ℕ) (cands : List α), detect t = Except.ok cands → ¬cands.isEmpty →
      (storeCandsLoop store cands).2 = true → (processTopic detect store t).failed = 1) := by
  refine ⟨?_, ?_, fun n => rfl, ?_⟩
  · intro α store c rest hc
    unfold storeCandsLoop
    rw [hc]
  · intro α detect store topics
    induction topics with
    | nil => intro acc; rfl
    | cons t rest ih =>
      intro acc
      simp only [runDetectThemesLoop, List.map_cons, List.foldl_cons]
      exact ih _
  · intro α detect store t cands hdet hne hfail
    unfold processTopic
    rw [hdet]
    simp [hne, hfail]

/-- Witness for C9: the failing store of the counterexample aborts the
candidate loop immediately with nothing stored. -/
theorem detectThemes_failure_isolation_witness :
    storeCandsLoop (fun c : ℕ => if c = 0 then Except.error () else Except.ok c) (0 :: [1]) =
      (0, true) :=
  detectThemes_failure_isolation.1 ℕ
    (fun c : ℕ => if c = 0 then Except.error () else Except.ok c) 0 [1] rfl

end Sprout
